import Mathlib

/-!
# Dynamic base path example (`examples/dynamic_path/main.go`)

A shallow embedding of the tenant extractor, the dynamic base path resolver and
the router of the example (an `http.ServeMux` with the one pattern `"/api/"` in
front of a suffix test), together with the parts of Go's `strings`, `path` and
`net/http` packages they call.

Go strings are byte sequences, and every operation used here (`Trim` with the
one-byte cutset `"/"`, `Split` on the one-byte separator `"/"`, `HasPrefix`,
`HasSuffix`, `==`, `+`) works byte by byte, so a Go string is modelled as a
list of bytes.  A run-time panic (index out of range) is modelled as an error
result.
-/

namespace DynamicPath

/-- A byte of a Go string. -/
abbrev Byte := UInt8

/-- A Go `string`: an immutable sequence of bytes. -/
abbrev GoString := List Byte

/-- The bytes of an ASCII string literal of the source. -/
def ascii (s : String) : GoString := s.toList.map Char.toUInt8

/-- The path separator `'/'`. -/
def slash : Byte := 47

/-- Run-time panics of the Go code. -/
inductive GoPanic where
  | indexOutOfRange (index len : Nat)
  deriving DecidableEq, Repr

deriving instance DecidableEq for Except

/-! ## `strings` -/

/-- `strings.trimLeftByte`: `for len(s) > 0 && s[0] == c { s = s[1:] }`. -/
def trimLeftByte : GoString → Byte → GoString
  | [], _ => []
  | b :: s, c => if b = c then trimLeftByte s c else b :: s

/-- `strings.trimRightByte`: `for len(s) > 0 && s[len(s)-1] == c { s = s[:len(s)-1] }`,
the same loop run from the other end. -/
def trimRightByte (s : GoString) (c : Byte) : GoString :=
  (trimLeftByte s.reverse c).reverse

/-- `strings.Trim(s, cutset)` for a cutset of one ASCII byte `c`, the branch
`trimLeftByte(trimRightByte(s, cutset[0]), cutset[0])` taken by `Trim(path, "/")`. -/
def Trim (s : GoString) (c : Byte) : GoString :=
  trimLeftByte (trimRightByte s c) c

/-- `strings.Count(s, sep)` for a one-byte separator. -/
def Count : GoString → Byte → Nat
  | [], _ => 0
  | b :: s, c => if b = c then Count s c + 1 else Count s c

/-- `strings.Index(s, sep)` for a one-byte separator; `none` stands for `-1`. -/
def Index : GoString → Byte → Option Nat
  | [], _ => none
  | b :: s, c => if b = c then some 0 else (Index s c).map (· + 1)

/-- The loop of `strings.genSplit` (with `sepSave = 0`, `len(sep) = 1`): `n`
counts the iterations left (`i < n`), each one cuts `s[:m]` off at the first
separator and continues with `s[m+1:]`; the rest of `s` is the last element. -/
def genSplitLoop : Nat → GoString → Byte → List GoString
  | 0, s, _ => [s]
  | n + 1, s, c =>
    match Index s c with
    | none => [s]
    | some m => s.take m :: genSplitLoop n (s.drop (m + 1)) c

/-- `strings.Split(s, sep)` for a one-byte separator: `genSplit(s, sep, 0, -1)`,
which makes room for `n = Count(s, sep) + 1` elements and runs the loop
`n - 1` times (the cap `n > len(s) + 1` cannot apply, a count being at most
the length). -/
def Split (s : GoString) (c : Byte) : List GoString :=
  genSplitLoop (Count s c) s c

/-- `strings.HasPrefix(s, prefix)`: `len(s) >= len(prefix) && s[:len(prefix)] == prefix`. -/
def HasPrefix (s pre : GoString) : Bool :=
  decide (s.length ≥ pre.length) && (s.take pre.length == pre)

/-- `strings.HasSuffix(s, suffix)`:
`len(s) >= len(suffix) && s[len(s)-len(suffix):] == suffix`. -/
def HasSuffix (s suf : GoString) : Bool :=
  decide (s.length ≥ suf.length) && (s.drop (s.length - suf.length) == suf)

/-- A slice index expression `a[i]`, which panics when `i` is out of range. -/
def index (a : List GoString) (i : Nat) : Except GoPanic GoString :=
  match a.get? i with
  | some x => .ok x
  | none => .error (.indexOutOfRange i a.length)

/-! ## The example -/

/-- `extractTenantFromPath`: the second segment of the trimmed path when there
are at least two segments and the first is `"api"`, otherwise `""`.  The `&&`
is short-circuit: `parts[0]` and `parts[1]` are only evaluated after the length
test succeeded. -/
def extractTenantFromPath (path : GoString) : Except GoPanic GoString :=
  let parts := Split (Trim path slash) slash
  if parts.length ≥ 2 then
    match index parts 0 with
    | .error e => .error e
    | .ok p0 =>
      if p0 = ascii "api" then index parts 1 else .ok (ascii "")
  else .ok (ascii "")

/-- The fields of `url.URL` a handler can read. -/
structure URL where
  Scheme : GoString
  Host : GoString
  Path : GoString
  RawQuery : GoString
  deriving DecidableEq, Repr

/-- The fields of `http.Request` that the mux and the handlers read. -/
structure Request where
  Method : GoString
  URL : URL
  Host : GoString
  RequestURI : GoString
  Header : List (GoString × GoString)
  RemoteAddr : GoString
  deriving DecidableEq, Repr

/-- The function passed to `server.WithDynamicBasePath`:
`tenant := extractTenantFromPath(r.URL.Path); return "/api/" + tenant`. -/
def dynamicBasePath (r : Request) (_sessionID : GoString) : Except GoPanic GoString :=
  match extractTenantFromPath r.URL.Path with
  | .error e => .error e
  | .ok tenant => .ok (ascii "/api/" ++ tenant)

/-- What the router does with a request: it calls one of the two handlers of
the SSE server, or answers itself with 404, with a 301 redirect to the given
path, or with 400. -/
inductive Dispatch where
  | sseHandler
  | messageHandler
  | notFound
  | redirect (path : GoString)
  | badRequest
  deriving DecidableEq, Repr

/-- The handler registered with `mux.HandleFunc("/api/", ...)`: a suffix test on
`r.URL.Path`. -/
def apiHandler (path : GoString) : Dispatch :=
  if HasSuffix path (ascii "/sse") then .sseHandler
  else if HasSuffix path (ascii "/message") then .messageHandler
  else .notFound

/-! ## `path.Clean` and `http.ServeMux`

The mux is the one of Go 1.20 and 1.21, the versions the source names: it works
on `r.URL.Path`. -/

/-- The byte `'.'`. -/
def dot : Byte := 46

/-- The inner loop of the `..` case of `path.Clean`, after `out.w--`:
`for out.w > dotdot && out.index(out.w) != '/' { out.w-- }`.  The buffer `out`
is kept in reverse, last written byte first, so that `out.w` is its length;
`last` is the byte at index `out.w`, the one dropped last. -/
def backtrack : GoString → Byte → Nat → GoString
  | [], _, _ => []
  | b :: out, last, dotdot =>
    if (b :: out).length > dotdot ∧ last ≠ slash then backtrack out b dotdot else b :: out

/-- The main loop `for r < n` of `path.Clean`.  `rest` is `path[r:]`, `out` the
buffer written so far, in reverse; each iteration consumes at least one byte,
and the first argument bounds the number of iterations. -/
def cleanLoop : Nat → GoString → GoString → Nat → Bool → GoString
  | 0, _, out, _, _ => out
  | _ + 1, [], out, _, _ => out
  | n + 1, c :: tl, out, dotdot, rooted =>
    if c = slash then
      -- empty path element
      cleanLoop n tl out dotdot rooted
    else if c = dot ∧ (tl = [] ∨ tl.head? = some slash) then
      -- . element
      cleanLoop n tl out dotdot rooted
    else if c = dot ∧ tl.head? = some dot ∧ (tl.tail = [] ∨ tl.tail.head? = some slash) then
      -- .. element: remove to last /
      if out.length > dotdot then
        cleanLoop n tl.tail
          (match out with
            | [] => []
            | b :: o => backtrack o b dotdot) dotdot rooted
      else if !rooted then
        let out1 := if out.length > 0 then slash :: out else out
        cleanLoop n tl.tail (dot :: dot :: out1) (out1.length + 2) rooted
      else cleanLoop n tl.tail out dotdot rooted
    else
      -- real path element: add slash if needed, copy element
      let out1 :=
        if (rooted = true ∧ out.length ≠ 1) ∨ (rooted = false ∧ out.length ≠ 0) then slash :: out
        else out
      cleanLoop n ((c :: tl).dropWhile (· ≠ slash))
        (((c :: tl).takeWhile (· ≠ slash)).reverse ++ out1) dotdot rooted

/-- `path.Clean`. -/
def Clean (path : GoString) : GoString :=
  if path = [] then ascii "."
  else
    let rooted : Bool := path.head? = some slash
    let out :=
      if rooted then cleanLoop path.length path.tail [slash] 1 true
      else cleanLoop path.length path [] 0 false
    if out.length = 0 then ascii "." else out.reverse

/-- `http.cleanPath`: the canonical form of a request path. -/
def cleanPath (p : GoString) : GoString :=
  if p = [] then ascii "/"
  else
    let p1 := if p.head? ≠ some slash then slash :: p else p
    let np := Clean p1
    if p1.getLast? = some slash ∧ np ≠ ascii "/" then
      if p1.length = np.length + 1 ∧ HasPrefix p1 np = true then p1 else np ++ ascii "/"
    else np

/-- The keys of `mux.m`: the one pattern registered by `main`. -/
def muxPatterns : List GoString := [ascii "/api/"]

/-- `(*ServeMux).shouldRedirectRLocked`: whether `path` is not registered itself
while `path + "/"` is. -/
def shouldRedirectRLocked (host path : GoString) : Bool :=
  if path ∈ muxPatterns ∨ host ++ path ∈ muxPatterns then false
  else if path.length = 0 then false
  else if path ++ ascii "/" ∈ muxPatterns ∨ host ++ path ++ ascii "/" ∈ muxPatterns then
    decide (path.getLast? ≠ some slash)
  else false

/-- `(*ServeMux).handler`: no pattern names a host, so the host is ignored;
`mux.match` takes an exact match, then the longest registered pattern ending in
`'/'` that is a prefix of the path; without a match the reply is not-found. -/
def muxHandler (path : GoString) : Dispatch :=
  if path ∈ muxPatterns then apiHandler path
  else if HasPrefix path (ascii "/api/") then apiHandler path
  else .notFound

/-- `(*ServeMux).Handler`.  A `CONNECT` request is looked up as it is; any other
request has its path cleaned and is redirected when the path changes.  The
host passed on is `stripHostPort(r.Host)`, with `stripHostPort` a parameter. -/
def ServeMux.Handler (stripHostPort : GoString → GoString) (r : Request) : Dispatch :=
  if r.Method = ascii "CONNECT" then
    if shouldRedirectRLocked r.URL.Host r.URL.Path then .redirect (r.URL.Path ++ ascii "/")
    else muxHandler r.URL.Path
  else
    let host := stripHostPort r.Host
    let path := cleanPath r.URL.Path
    if shouldRedirectRLocked host path then .redirect (path ++ ascii "/")
    else if path ≠ r.URL.Path then .redirect path
    else muxHandler r.URL.Path

/-- The router, `(*ServeMux).ServeHTTP`: 400 for the request URI `"*"`, otherwise
the handler chosen by `Handler`. -/
def route (stripHostPort : GoString → GoString) (r : Request) : Dispatch :=
  if r.RequestURI = ascii "*" then .badRequest else ServeMux.Handler stripHostPort r

/-- A request with the given path and fixed other fields. -/
def requestFor (path : GoString) : Request :=
  { Method := ascii "GET", URL := { Scheme := [], Host := [], Path := path, RawQuery := [] },
    Host := ascii "localhost", RequestURI := path, Header := [], RemoteAddr := [] }

/-- The request `r` with its URL path replaced by `path`. -/
def withPath (r : Request) (path : GoString) : Request :=
  { r with URL := { r.URL with Path := path } }

/-! ## Predicates used in the proofs -/

/-- No two adjacent bytes of `s` are both `'/'`. -/
def NoDoubleSlash (s : GoString) : Prop :=
  List.Chain' (fun x y => ¬ (x = slash ∧ y = slash)) s

/-- The shape of the reversed output buffer of `path.Clean` on a rooted path:
it starts (at its far end) with `'/'`, has no two adjacent `'/'`, and its last
written byte is `'/'` only when it is `"/"` itself. -/
def RootedOut (out : GoString) : Prop :=
  NoDoubleSlash out ∧ out.getLast? = some slash ∧ (out.head? = some slash → out = [slash])

/-! ## Facts about the `strings` functions -/

theorem Index_of_not_mem (s : GoString) (c : Byte) (h : c ∉ s) : Index s c = none := by
  induction s with
  | nil => rfl
  | cons b s ih =>
    simp only [List.mem_cons, not_or] at h
    have hb : ¬ b = c := fun e => h.1 e.symm
    simp [Index, hb, ih h.2]

theorem Count_of_not_mem (s : GoString) (c : Byte) (h : c ∉ s) : Count s c = 0 := by
  induction s with
  | nil => rfl
  | cons b s ih =>
    simp only [List.mem_cons, not_or] at h
    have hb : ¬ b = c := fun e => h.1 e.symm
    simp [Count, hb, ih h.2]

theorem Index_append (a r : GoString) (c : Byte) (h : c ∉ a) :
    Index (a ++ c :: r) c = some a.length := by
  induction a with
  | nil => simp [Index]
  | cons b a ih =>
    simp only [List.mem_cons, not_or] at h
    have hb : ¬ b = c := fun e => h.1 e.symm
    simp [Index, hb, ih h.2]

theorem Count_append (a r : GoString) (c : Byte) (h : c ∉ a) :
    Count (a ++ c :: r) c = Count r c + 1 := by
  induction a with
  | nil => simp [Count]
  | cons b a ih =>
    simp only [List.mem_cons, not_or] at h
    have hb : ¬ b = c := fun e => h.1 e.symm
    simp [Count, hb, ih h.2]

/-- A string without the separator is its own single segment. -/
theorem Split_of_not_mem (s : GoString) (c : Byte) (h : c ∉ s) : Split s c = [s] := by
  simp [Split, Count_of_not_mem s c h, genSplitLoop]

/-- The first separator ends the first segment; the rest is split on its own. -/
theorem Split_append (a r : GoString) (c : Byte) (h : c ∉ a) :
    Split (a ++ c :: r) c = a :: Split r c := by
  simp [Split, Count_append a r c h, genSplitLoop, Index_append a r c h]

/-- A string either has no separator or has a first one. -/
theorem sep_cases (s : GoString) (c : Byte) :
    c ∉ s ∨ ∃ a r, c ∉ a ∧ s = a ++ c :: r := by
  induction s with
  | nil => exact Or.inl (by simp)
  | cons b s ih =>
    by_cases hb : b = c
    · exact Or.inr ⟨[], s, by simp, by simp [hb]⟩
    · rcases ih with h | ⟨a, r, ha, hs⟩
      · refine Or.inl ?_
        simp only [List.mem_cons, not_or]
        exact ⟨fun e => hb e.symm, h⟩
      · refine Or.inr ⟨b :: a, r, ?_, by simp [hs]⟩
        simp only [List.mem_cons, not_or]
        exact ⟨fun e => hb e.symm, ha⟩

theorem trimLeftByte_cons_ne (b c : Byte) (s : GoString) (h : b ≠ c) :
    trimLeftByte (b :: s) c = b :: s := by
  simp [trimLeftByte, h]

theorem trimRightByte_concat_ne (b c : Byte) (s : GoString) (h : b ≠ c) :
    trimRightByte (s ++ [b]) c = s ++ [b] := by
  simp [trimRightByte, trimLeftByte, h]

/-- `HasPrefix` decides the prefix relation. -/
theorem HasPrefix_iff (s pre : GoString) : HasPrefix s pre = true ↔ pre <+: s := by
  unfold HasPrefix
  simp only [Bool.and_eq_true, decide_eq_true_eq, beq_iff_eq]
  constructor
  · rintro ⟨_, h⟩
    exact List.prefix_iff_eq_take.mpr h.symm
  · intro h
    exact ⟨h.length_le, (List.prefix_iff_eq_take.mp h).symm⟩

/-- `HasSuffix` decides the suffix relation. -/
theorem HasSuffix_iff (s suf : GoString) : HasSuffix s suf = true ↔ suf <:+ s := by
  unfold HasSuffix
  simp only [Bool.and_eq_true, decide_eq_true_eq, beq_iff_eq]
  constructor
  · rintro ⟨_, h⟩
    exact List.suffix_iff_eq_drop.mpr h.symm
  · intro h
    exact ⟨h.length_le, (List.suffix_iff_eq_drop.mp h).symm⟩

/-! ## Facts about the example -/

/-- Trimming removes nothing from a string whose first and last bytes are not
the cutset, and exactly one leading cutset byte before such a string. -/
theorem Trim_slash_cons (b e : Byte) (m : GoString) (hb : b ≠ slash) (he : e ≠ slash) :
    Trim (slash :: b :: (m ++ [e])) slash = b :: (m ++ [e]) := by
  have h1 : slash :: b :: (m ++ [e]) = (slash :: b :: m) ++ [e] := by simp
  unfold Trim
  rw [h1, trimRightByte_concat_ne e slash _ he]
  simp [trimLeftByte, hb]

theorem Trim_sse (t : GoString) :
    Trim (ascii "/api/" ++ t ++ ascii "/sse") slash = ascii "api" ++ slash :: t ++ ascii "/sse" := by
  have h := Trim_slash_cons 97 101 ([112, 105, 47] ++ t ++ [47, 115, 115]) (by decide) (by decide)
  simpa [ascii, slash] using h

theorem Trim_message (t : GoString) :
    Trim (ascii "/api/" ++ t ++ ascii "/message") slash
      = ascii "api" ++ slash :: t ++ ascii "/message" := by
  have h := Trim_slash_cons 97 101 ([112, 105, 47] ++ t ++ [47, 109, 101, 115, 115, 97, 103])
    (by decide) (by decide)
  simpa [ascii, slash] using h

/-- A trimmed path with a single segment has no tenant. -/
theorem extract_one_segment (p : GoString) (h : slash ∉ Trim p slash) :
    extractTenantFromPath p = .ok [] := by
  simp [extractTenantFromPath, Split_of_not_mem _ _ h, ascii]

/-- A trimmed path with segments `a`, `t` and possibly more yields `t` when `a`
is `"api"`, and no tenant otherwise. -/
theorem extract_two_segments (p a t tail : GoString) (ha : slash ∉ a) (ht : slash ∉ t)
    (htail : tail = [] ∨ ∃ rest, tail = slash :: rest)
    (hq : Trim p slash = a ++ slash :: t ++ tail) :
    extractTenantFromPath p = if a = ascii "api" then .ok t else .ok [] := by
  have hsplit : ∃ tl, Split (Trim p slash) slash = a :: t :: tl := by
    have e : a ++ slash :: t ++ tail = a ++ slash :: (t ++ tail) := by simp
    rw [hq, e, Split_append a _ slash ha]
    rcases htail with h | ⟨rest, h⟩
    · subst h
      exact ⟨[], by simp [Split_of_not_mem t slash ht]⟩
    · subst h
      exact ⟨Split rest slash, by rw [Split_append t rest slash ht]⟩
  obtain ⟨tl, hs⟩ := hsplit
  by_cases hapi : a = ascii "api"
  · simp [extractTenantFromPath, hs, index, hapi]
  · simp [extractTenantFromPath, hs, index, hapi, ascii]

/-- The tenant of an endpoint path, for any separator-free segment (empty or not). -/
theorem extract_sse (t : GoString) (ht : slash ∉ t) :
    extractTenantFromPath (ascii "/api/" ++ t ++ ascii "/sse") = .ok t := by
  have h := extract_two_segments (ascii "/api/" ++ t ++ ascii "/sse") (ascii "api") t (ascii "/sse")
    (by decide) ht (Or.inr ⟨ascii "sse", by decide⟩) (Trim_sse t)
  simpa using h

theorem extract_message (t : GoString) (ht : slash ∉ t) :
    extractTenantFromPath (ascii "/api/" ++ t ++ ascii "/message") = .ok t := by
  have h := extract_two_segments (ascii "/api/" ++ t ++ ascii "/message") (ascii "api") t
    (ascii "/message") (by decide) ht (Or.inr ⟨ascii "message", by decide⟩) (Trim_message t)
  simpa using h

/-- The extractor never panics, and its result has no separator. -/
theorem extract_ok (p : GoString) : ∃ t, extractTenantFromPath p = .ok t ∧ slash ∉ t := by
  rcases sep_cases (Trim p slash) slash with h | ⟨a, r, ha, hq⟩
  · exact ⟨[], extract_one_segment p h, by simp⟩
  · rcases sep_cases r slash with hr | ⟨t, rest, ht, hr⟩
    · have h := extract_two_segments p a r [] ha hr (Or.inl rfl) (by simpa using hq)
      by_cases hapi : a = ascii "api"
      · exact ⟨r, by simpa [hapi] using h, hr⟩
      · exact ⟨[], by simpa [hapi] using h, by simp⟩
    · have h := extract_two_segments p a t (slash :: rest) ha ht (Or.inr ⟨rest, rfl⟩)
        (by simpa [hr] using hq)
      by_cases hapi : a = ascii "api"
      · exact ⟨t, by simpa [hapi] using h, ht⟩
      · exact ⟨[], by simpa [hapi] using h, by simp⟩

/-- The resolver applied to a request whose extractor result is known. -/
theorem dynamicBasePath_of_extract (r : Request) (s t : GoString)
    (h : extractTenantFromPath r.URL.Path = .ok t) :
    dynamicBasePath r s = .ok (ascii "/api/" ++ t) := by
  simp [dynamicBasePath, h]

/-- No path ends with both suffixes. -/
theorem not_both_suffixes (p : GoString) (h1 : ascii "/sse" <:+ p)
    (h2 : ascii "/message" <:+ p) : False := by
  have h := List.suffix_of_suffix_length_le h1 h2 (by decide)
  exact absurd h (by decide)

theorem apiHandler_sse_iff (p : GoString) :
    apiHandler p = .sseHandler ↔ ascii "/sse" <:+ p := by
  rw [← HasSuffix_iff]
  unfold apiHandler
  cases HasSuffix p (ascii "/sse") <;> cases HasSuffix p (ascii "/message") <;> simp

theorem apiHandler_message_iff (p : GoString) :
    apiHandler p = .messageHandler ↔ ascii "/message" <:+ p := by
  constructor
  · intro h
    rw [← HasSuffix_iff]
    unfold apiHandler at h
    cases h2 : HasSuffix p (ascii "/message")
    · cases h1 : HasSuffix p (ascii "/sse") <;> simp [h1, h2] at h
    · rfl
  · intro h
    have h1 : HasSuffix p (ascii "/sse") = false := by
      cases h1 : HasSuffix p (ascii "/sse")
      · rfl
      · exact (not_both_suffixes p ((HasSuffix_iff p _).mp h1) h).elim
    simp [apiHandler, h1, (HasSuffix_iff p _).mpr h]

theorem apiHandler_notFound_iff (p : GoString) :
    apiHandler p = .notFound ↔ ¬ ascii "/sse" <:+ p ∧ ¬ ascii "/message" <:+ p := by
  rw [← HasSuffix_iff, ← HasSuffix_iff]
  unfold apiHandler
  cases HasSuffix p (ascii "/sse") <;> cases HasSuffix p (ascii "/message") <;> simp

/-! ## Facts about `path.Clean` and `cleanPath` -/

theorem cleanLoop_nil (f : Nat) (out : GoString) (d : Nat) (r : Bool) :
    cleanLoop f [] out d r = out := by
  cases f <;> rfl

/-- The bound on the iterations is never reached: any bound of at least the
number of bytes left gives the same result. -/
theorem cleanLoop_fuel (f : Nat) : ∀ (g : Nat) (rest out : GoString) (d : Nat) (r : Bool),
    rest.length ≤ f → rest.length ≤ g → cleanLoop f rest out d r = cleanLoop g rest out d r := by
  induction f with
  | zero =>
    intro g rest out d r hf _
    have : rest = [] := List.eq_nil_of_length_eq_zero (Nat.le_zero.mp hf)
    subst this
    rw [cleanLoop_nil, cleanLoop_nil]
  | succ n ih =>
    intro g rest out d r hf hg
    cases g with
    | zero =>
      have : rest = [] := List.eq_nil_of_length_eq_zero (Nat.le_zero.mp hg)
      subst this
      rw [cleanLoop_nil, cleanLoop_nil]
    | succ m =>
      cases rest with
      | nil => rfl
      | cons c tl =>
        simp only [List.length_cons, Nat.add_le_add_iff_right] at hf hg
        have htail : tl.tail.length ≤ tl.length := by simp
        have hdrop : ∀ hc : ¬ c = slash,
            ((c :: tl).dropWhile (· ≠ slash)).length ≤ tl.length := by
          intro hc
          have e : (c :: tl).dropWhile (· ≠ slash) = tl.dropWhile (· ≠ slash) := by
            simp [List.dropWhile, hc]
          rw [e]
          exact (List.dropWhile_sublist _).length_le
        unfold cleanLoop
        split_ifs
        · exact ih m _ _ _ _ hf hg
        · exact ih m _ _ _ _ hf hg
        · exact ih m _ _ _ _ (le_trans htail hf) (le_trans htail hg)
        · exact ih m _ _ _ _ (le_trans htail hf) (le_trans htail hg)
        · exact ih m _ _ _ _ (le_trans htail hf) (le_trans htail hg)
        · exact ih m _ _ _ _ (le_trans htail hf) (le_trans htail hg)
        · rename_i hc _ _ _
          exact ih m _ _ _ _ (le_trans (hdrop hc) hf) (le_trans (hdrop hc) hg)
        · rename_i hc _ _ _
          exact ih m _ _ _ _ (le_trans (hdrop hc) hf) (le_trans (hdrop hc) hg)

theorem NoDoubleSlash_cons (a : Byte) (l : GoString) (h : NoDoubleSlash l)
    (ha : a ≠ slash ∨ l.head? ≠ some slash) : NoDoubleSlash (a :: l) := by
  unfold NoDoubleSlash at *
  refine List.chain'_cons'.mpr ⟨?_, h⟩
  intro y hy hxy
  rcases ha with ha | ha
  · exact ha hxy.1
  · apply ha
    rw [Option.mem_def] at hy
    rw [hy, hxy.2]

theorem NoDoubleSlash_tail (a : Byte) (l : GoString) (h : NoDoubleSlash (a :: l)) :
    NoDoubleSlash l := by
  unfold NoDoubleSlash at *
  exact (List.chain'_cons'.mp h).2

theorem NoDoubleSlash_head (a b : Byte) (l : GoString) (h : NoDoubleSlash (a :: b :: l)) :
    ¬ (a = slash ∧ b = slash) := by
  unfold NoDoubleSlash at h
  exact (List.chain'_cons.mp h).1

/-- Copying an element without `'/'` onto the buffer keeps it free of `"//"`. -/
theorem NoDoubleSlash_push (l out : GoString) (hl : ∀ x ∈ l, x ≠ slash)
    (hc : NoDoubleSlash out) : NoDoubleSlash (l.reverse ++ out) := by
  induction l generalizing out with
  | nil => simpa using hc
  | cons a l ih =>
    have e : (a :: l).reverse ++ out = l.reverse ++ (a :: out) := by simp
    rw [e]
    refine ih (a :: out) (fun x hx => hl x (List.mem_cons_of_mem _ hx)) ?_
    exact NoDoubleSlash_cons a out hc (Or.inl (hl a (List.mem_cons_self _ _)))

theorem RootedOut_push (l out : GoString) (hne : l ≠ []) (hl : ∀ x ∈ l, x ≠ slash)
    (hc : NoDoubleSlash out) (hlast : out.getLast? = some slash) :
    RootedOut (l.reverse ++ out) := by
  refine ⟨NoDoubleSlash_push l out hl hc, ?_, ?_⟩
  · simp [hlast]
  · intro h
    exfalso
    obtain ⟨x, hx⟩ : ∃ x, l.getLast? = some x := by
      cases hg : l.getLast? with
      | none => exact absurd (List.getLast?_eq_none_iff.mp hg) hne
      | some x => exact ⟨x, rfl⟩
    have hmem : x ∈ l := List.mem_of_getLast?_eq_some hx
    simp [hx] at h
    exact hl x hmem h

/-- Backtracking over a `..` element keeps the shape of the buffer. -/
theorem RootedOut_backtrack (out : GoString) (last : Byte)
    (hc : NoDoubleSlash (last :: out)) (hlast : out.getLast? = some slash) :
    RootedOut (backtrack out last 1) := by
  induction out generalizing last with
  | nil => simp at hlast
  | cons b o ih =>
    unfold backtrack
    by_cases hcond : (b :: o).length > 1 ∧ last ≠ slash
    · rw [if_pos hcond]
      have ho : o ≠ [] := by
        intro e
        rw [e] at hcond
        simp at hcond
      refine ih b (NoDoubleSlash_tail last _ hc) ?_
      cases o with
      | nil => exact absurd rfl ho
      | cons c o2 => simpa using hlast
    · rw [if_neg hcond]
      refine ⟨NoDoubleSlash_tail last _ hc, hlast, ?_⟩
      intro hb
      have hb2 : b = slash := by simpa using hb
      cases o with
      | nil => rw [hb2]
      | cons c o2 =>
        exfalso
        have hl : last = slash := by
          by_contra hne
          exact hcond ⟨by simp, hne⟩
        exact NoDoubleSlash_head last b _ hc ⟨hl, hb2⟩

/-- The main loop of `path.Clean` keeps the shape of the buffer on a rooted path. -/
theorem RootedOut_cleanLoop (f : Nat) : ∀ (rest out : GoString), RootedOut out →
    RootedOut (cleanLoop f rest out 1 true) := by
  induction f with
  | zero => intro rest out h; simpa [cleanLoop] using h
  | succ n ih =>
    intro rest out h
    cases rest with
    | nil => simpa [cleanLoop] using h
    | cons c tl =>
      unfold cleanLoop
      split_ifs
      · exact ih _ _ h
      · exact ih _ _ h
      · rename_i h4
        refine ih _ _ ?_
        cases out with
        | nil => simp at h4
        | cons b o =>
          refine RootedOut_backtrack o b h.1 ?_
          cases o with
          | nil => simp at h4
          | cons c2 o2 => simpa using h.2.1
      · rename_i h5 _
        simp at h5
      · rename_i h5 _
        simp at h5
      · exact ih _ _ h
      · rename_i h1 _ _ h6
        refine ih _ _ ?_
        refine RootedOut_push _ _ ?_ ?_ ?_ ?_
        · simp [List.takeWhile, h1]
        · intro x hx
          have := List.mem_takeWhile_imp hx
          simpa using this
        · refine NoDoubleSlash_cons slash out h.1 (Or.inr ?_)
          intro hh
          have := h.2.2 hh
          rcases h6 with h6 | h6
          · exact h6.2 (by simp [this])
          · exact h6.1
        · cases out with
          | nil => exact absurd h.2.1 (by simp)
          | cons b o => simpa using h.2.1
      · rename_i h1 _ _ _
        refine ih _ _ ?_
        refine RootedOut_push _ _ ?_ ?_ h.1 h.2.1
        · simp [List.takeWhile, h1]
        · intro x hx
          have := List.mem_takeWhile_imp hx
          simpa using this

theorem NoDoubleSlash_reverse (l : GoString) (h : NoDoubleSlash l) :
    NoDoubleSlash l.reverse := by
  unfold NoDoubleSlash at *
  rw [List.chain'_reverse]
  exact List.Chain'.imp (fun a b hab hba => hab ⟨hba.2, hba.1⟩) h

/-- On a rooted path `path.Clean` returns a rooted path without `"//"` that ends
with `'/'` only when it is `"/"`. -/
theorem Clean_rooted (tl : GoString) :
    ∃ np', Clean (slash :: tl) = slash :: np' ∧ NoDoubleSlash (Clean (slash :: tl)) ∧
      ((Clean (slash :: tl)).getLast? = some slash → Clean (slash :: tl) = [slash]) := by
  have hJ := RootedOut_cleanLoop (slash :: tl).length tl [slash]
    ⟨List.chain'_singleton _, by simp, fun _ => rfl⟩
  have hne : cleanLoop (slash :: tl).length tl [slash] 1 true ≠ [] := by
    intro h0
    rw [h0] at hJ
    exact absurd hJ.2.1 (by simp)
  have hC : Clean (slash :: tl)
      = (cleanLoop (slash :: tl).length tl [slash] 1 true).reverse := by
    unfold Clean
    simp only [List.length_cons] at hne
    simp [hne]
  rw [hC]
  generalize cleanLoop (slash :: tl).length tl [slash] 1 true = out at hJ
  obtain ⟨h1, h2, h3⟩ := hJ
  have hh : out.reverse.head? = some slash := by simpa using h2
  have hlast : out.reverse.getLast? = some slash → out.reverse = [slash] := by
    intro hl
    have : out.head? = some slash := by simpa using hl
    rw [h3 this]
    rfl
  cases hr : out.reverse with
  | nil => rw [hr] at hh; simp at hh
  | cons a np' =>
    rw [hr] at hh
    have ha : a = slash := by simpa using hh
    rw [← hr]
    exact ⟨np', by rw [hr, ha], NoDoubleSlash_reverse out h1, hlast⟩

/-- Every cleaned request path starts with `'/'` and has no `"//"`. -/
theorem cleanPath_shape (p : GoString) :
    (∃ c, cleanPath p = slash :: c) ∧ NoDoubleSlash (cleanPath p) := by
  by_cases hp : p = []
  · subst hp
    exact ⟨⟨[], rfl⟩, List.chain'_singleton _⟩
  · obtain ⟨tl, hp1⟩ : ∃ tl, (if p.head? ≠ some slash then slash :: p else p) = slash :: tl := by
      by_cases hh : p.head? ≠ some slash
      · exact ⟨p, by rw [if_pos hh]⟩
      · rw [if_neg hh]
        cases p with
        | nil => exact absurd rfl hp
        | cons a t =>
          have : a = slash := by simpa using hh
          exact ⟨t, by rw [this]⟩
    obtain ⟨np', hnp, hnd, hlast⟩ := Clean_rooted tl
    have happ : (∃ c, Clean (slash :: tl) ++ ascii "/" = slash :: c) ∧
        (Clean (slash :: tl) ≠ ascii "/" → NoDoubleSlash (Clean (slash :: tl) ++ ascii "/")) := by
      refine ⟨⟨np' ++ ascii "/", by rw [hnp]; rfl⟩, ?_⟩
      intro hne
      unfold NoDoubleSlash at *
      refine List.chain'_append.mpr ⟨hnd, List.chain'_singleton _, ?_⟩
      intro x hx y _ hxy
      rw [Option.mem_def] at hx
      apply hne
      rw [hxy.1] at hx
      exact hlast hx
    unfold cleanPath
    rw [if_neg hp]
    simp only [hp1]
    split_ifs with h1 h2
    · have hpre : Clean (slash :: tl) <+: slash :: tl := (HasPrefix_iff _ _).mp h2.2
      obtain ⟨t, ht⟩ := hpre
      have hlen : t.length = 1 := by
        have := congrArg List.length ht
        simp only [List.length_append] at this
        omega
      obtain ⟨x, hx⟩ : ∃ x, t = [x] := List.length_eq_one.mp hlen
      have hx2 : x = slash := by
        have := h1.1
        rw [← ht, hx] at this
        simpa using this
      have e : slash :: tl = Clean (slash :: tl) ++ ascii "/" := by
        rw [hx, hx2] at ht
        exact ht.symm
      have hnd2 := happ.2 h1.2
      rw [← e] at hnd2
      exact ⟨⟨tl, rfl⟩, hnd2⟩
    · exact ⟨happ.1, happ.2 h1.2⟩
    · exact ⟨⟨np', hnp⟩, hnd⟩

/-- Copying one element: up to the next `'/'` or the end of the path. -/
theorem takeWhile_elem (e rest : GoString) (hs : slash ∉ e)
    (hrest : rest = [] ∨ ∃ r, rest = slash :: r) :
    (e ++ rest).takeWhile (· ≠ slash) = e ∧ (e ++ rest).dropWhile (· ≠ slash) = rest := by
  have hp : ∀ a ∈ e, (decide (a ≠ slash)) = true := by
    intro a ha
    simp only [decide_eq_true_eq]
    intro h
    exact hs (h ▸ ha)
  rw [List.takeWhile_append_of_pos hp, List.dropWhile_append_of_pos hp]
  rcases hrest with h | ⟨r, h⟩
  · subst h
    simp
  · subst h
    simp

/-- One iteration of the main loop of `path.Clean` on a real path element. -/
theorem cleanLoop_elem (f : Nat) (e rest out : GoString) (he : e ≠ []) (hs : slash ∉ e)
    (h1 : e ≠ [dot]) (h2 : e ≠ [dot, dot]) (hrest : rest = [] ∨ ∃ r, rest = slash :: r) :
    cleanLoop (f + 1) (e ++ rest) out 1 true
      = cleanLoop f rest (e.reverse ++ (if out.length ≠ 1 then slash :: out else out)) 1 true := by
  obtain ⟨ht, hd⟩ := takeWhile_elem e rest hs hrest
  cases e with
  | nil => exact absurd rfl he
  | cons c e1 =>
    have hc : ¬ c = slash := fun h => hs (by simp [h])
    have c2 : ¬ (c = dot ∧ (e1 ++ rest = [] ∨ (e1 ++ rest).head? = some slash)) := by
      rintro ⟨hd1, hd2⟩
      cases e1 with
      | nil => exact h1 (by rw [hd1])
      | cons c1 e2 =>
        simp at hd2
        exact hs (by simp [hd2])
    have c3 : ¬ (c = dot ∧ (e1 ++ rest).head? = some dot ∧
        ((e1 ++ rest).tail = [] ∨ (e1 ++ rest).tail.head? = some slash)) := by
      rintro ⟨hd1, hd2, hd3⟩
      cases e1 with
      | nil => exact h1 (by rw [hd1])
      | cons c1 e2 =>
        have hc1 : c1 = dot := by simpa using hd2
        cases e2 with
        | nil => exact h2 (by rw [hd1, hc1])
        | cons c2 e3 =>
          simp at hd3
          exact hs (by simp [hd3])
    rw [List.cons_append] at ht hd ⊢
    conv_lhs => unfold cleanLoop
    rw [if_neg hc, if_neg c2, if_neg c3]
    simp only [ht, hd]
    by_cases hl : out.length = 1
    · simp [hl]
    · simp [hl]

theorem cleanLoop_slash (f : Nat) (rest out : GoString) :
    cleanLoop (f + 1) (slash :: rest) out 1 true = cleanLoop f rest out 1 true := by
  conv_lhs => unfold cleanLoop
  simp

/-- A rooted path of three real elements is its own cleaned form. -/
theorem cleanPath_three (a t s : GoString)
    (ha : a ≠ [] ∧ slash ∉ a ∧ a ≠ [dot] ∧ a ≠ [dot, dot])
    (ht : t ≠ [] ∧ slash ∉ t ∧ t ≠ [dot] ∧ t ≠ [dot, dot])
    (hs : s ≠ [] ∧ slash ∉ s ∧ s ≠ [dot] ∧ s ≠ [dot, dot]) :
    cleanPath (slash :: (a ++ slash :: (t ++ slash :: s)))
      = slash :: (a ++ slash :: (t ++ slash :: s)) := by
  have hla : a.length ≠ 0 := fun h => ha.1 (List.eq_nil_of_length_eq_zero h)
  have hlt : t.length ≠ 0 := fun h => ht.1 (List.eq_nil_of_length_eq_zero h)
  have hls : s.length ≠ 0 := fun h => hs.1 (List.eq_nil_of_length_eq_zero h)
  obtain ⟨k, hk⟩ : ∃ k, (slash :: (a ++ slash :: (t ++ slash :: s))).length = k + 5 :=
    ⟨a.length + t.length + s.length - 2, by simp; omega⟩
  have hloop : cleanLoop (k + 5) (a ++ slash :: (t ++ slash :: s)) [slash] 1 true
      = s.reverse ++ slash :: (t.reverse ++ slash :: (a.reverse ++ [slash])) := by
    rw [cleanLoop_elem (k + 4) a _ [slash] ha.1 ha.2.1 ha.2.2.1 ha.2.2.2 (Or.inr ⟨_, rfl⟩)]
    rw [cleanLoop_slash (k + 3)]
    rw [cleanLoop_elem (k + 2) t _ _ ht.1 ht.2.1 ht.2.2.1 ht.2.2.2 (Or.inr ⟨_, rfl⟩)]
    rw [cleanLoop_slash (k + 1)]
    have e : s = s ++ [] := by simp
    conv_lhs => rw [e]
    rw [cleanLoop_elem k s [] _ hs.1 hs.2.1 hs.2.2.1 hs.2.2.2 (Or.inl rfl), cleanLoop_nil]
    have hl2 : ¬ t.length + (a.length + 1 + 1) = 1 := by omega
    simp [hla, hl2]
  have hClean : Clean (slash :: (a ++ slash :: (t ++ slash :: s)))
      = slash :: (a ++ slash :: (t ++ slash :: s)) := by
    unfold Clean
    rw [hk]
    simp [hloop]
  have hlast : (slash :: (a ++ slash :: (t ++ slash :: s))).getLast? ≠ some slash := by
    obtain ⟨x, hx⟩ : ∃ x, s.getLast? = some x := by
      cases hg : s.getLast? with
      | none => exact absurd (List.getLast?_eq_none_iff.mp hg) hs.1
      | some x => exact ⟨x, rfl⟩
    have hmem : x ∈ s := List.mem_of_getLast?_eq_some hx
    have e : slash :: (a ++ slash :: (t ++ slash :: s))
        = (slash :: (a ++ slash :: (t ++ [slash]))) ++ s := by simp
    rw [e, List.getLast?_append, hx]
    intro h
    have : x = slash := by simpa using h
    exact hs.2.1 (this ▸ hmem)
  unfold cleanPath
  simp [hClean, hlast]

/-! ## Facts about the mux -/

/-- A path under `"/api/"` is never redirected to a path with a trailing slash. -/
theorem shouldRedirect_of_api (host p : GoString) (h : ascii "/api/" <+: p) :
    shouldRedirectRLocked host p = false := by
  have hlen : 5 ≤ p.length := h.length_le
  unfold shouldRedirectRLocked
  split_ifs with h1 h2 h3
  · rfl
  · rfl
  · exfalso
    simp only [muxPatterns, List.mem_singleton] at h3
    rcases h3 with h3 | h3
    · have := congrArg List.length h3
      simp [ascii] at this
      omega
    · have := congrArg List.length h3
      simp [ascii] at this
      omega
  · rfl

/-- A rooted path other than `"/api"` is never redirected to a path with a
trailing slash. -/
theorem shouldRedirect_of_rooted (host c : GoString) (hne : slash :: c ≠ ascii "/api") :
    shouldRedirectRLocked host (slash :: c) = false := by
  unfold shouldRedirectRLocked
  split_ifs with h1 h2 h3
  · rfl
  · rfl
  · exfalso
    simp only [muxPatterns, List.mem_singleton] at h3
    have key : ∀ x : GoString, x ++ ascii "/" = ascii "/api/" → x = ascii "/api" := by
      intro x hx
      have e : ascii "/api/" = ascii "/api" ++ ascii "/" := by decide
      rw [e] at hx
      exact List.append_cancel_right hx
    rcases h3 with h3 | h3
    · exact hne (key _ h3)
    · have h4 := key _ h3
      have hsuf : slash :: c <:+ ascii "/api" := ⟨host, h4⟩
      have hmem := (List.mem_tails _ _).mpr hsuf
      have ht : (ascii "/api").tails
          = [ascii "/api", ascii "api", ascii "pi", ascii "i", ascii ""] := by decide
      rw [ht] at hmem
      simp only [List.mem_cons, List.mem_singleton, List.not_mem_nil, or_false] at hmem
      rcases hmem with e | e | e | e | e
      · exact hne e
      · have h0 : some slash = (ascii "api").head? := congrArg List.head? e
        exact absurd h0 (by decide)
      · have h0 : some slash = (ascii "pi").head? := congrArg List.head? e
        exact absurd h0 (by decide)
      · have h0 : some slash = (ascii "i").head? := congrArg List.head? e
        exact absurd h0 (by decide)
      · have h0 : some slash = (ascii "").head? := congrArg List.head? e
        exact absurd h0 (by decide)
  · rfl

/-- The subtree root without its trailing slash is redirected. -/
theorem shouldRedirect_api (host : GoString) :
    shouldRedirectRLocked host (ascii "/api") = true := by
  have h1 : ¬ (ascii "/api" ∈ muxPatterns ∨ host ++ ascii "/api" ∈ muxPatterns) := by
    simp only [muxPatterns, List.mem_singleton]
    rintro (h | h)
    · exact absurd h (by decide)
    · have := congrArg List.getLast? h
      simp [ascii] at this
      exact absurd this (by decide)
  unfold shouldRedirectRLocked
  rw [if_neg h1]
  simp [muxPatterns, ascii, slash]
  decide

theorem muxHandler_of_api (p : GoString) (h : ascii "/api/" <+: p) :
    muxHandler p = apiHandler p := by
  simp [muxHandler, (HasPrefix_iff p _).mpr h]

theorem muxHandler_of_not_api (p : GoString) (h : ¬ ascii "/api/" <+: p) :
    muxHandler p = .notFound := by
  have h1 : HasPrefix p (ascii "/api/") = false := by
    cases hp : HasPrefix p (ascii "/api/")
    · rfl
    · exact absurd ((HasPrefix_iff p _).mp hp) h
  have h2 : p ∉ muxPatterns := by
    simp only [muxPatterns, List.mem_singleton]
    intro e
    exact h (e ▸ List.prefix_refl _)
  simp [muxHandler, h1, h2]

/-- A request in cleaned form, other than for `"/api"`, goes to the handler
lookup. -/
theorem route_of_clean (strip : GoString → GoString) (r : Request)
    (hm : r.Method ≠ ascii "CONNECT") (hu : r.RequestURI ≠ ascii "*")
    (hc : cleanPath r.URL.Path = r.URL.Path) (hne : r.URL.Path ≠ ascii "/api") :
    route strip r = muxHandler r.URL.Path := by
  obtain ⟨c, hcs⟩ := (cleanPath_shape r.URL.Path).1
  rw [hc] at hcs
  have hsr : shouldRedirectRLocked (strip r.Host) (cleanPath r.URL.Path) = false := by
    rw [hc, hcs]
    exact shouldRedirect_of_rooted _ c (hcs ▸ hne)
  rw [hc] at hsr
  simp [route, ServeMux.Handler, hm, hu, hsr, hc]

/-- A request that is not in cleaned form, or is for `"/api"`, is redirected. -/
theorem route_of_unclean (strip : GoString → GoString) (r : Request)
    (hm : r.Method ≠ ascii "CONNECT") (hu : r.RequestURI ≠ ascii "*")
    (hc : cleanPath r.URL.Path ≠ r.URL.Path ∨ r.URL.Path = ascii "/api") :
    ∃ loc, route strip r = .redirect loc := by
  by_cases hsr : shouldRedirectRLocked (strip r.Host) (cleanPath r.URL.Path) = true
  · exact ⟨cleanPath r.URL.Path ++ ascii "/", by simp [route, ServeMux.Handler, hm, hu, hsr]⟩
  · rcases hc with hc | hc
    · exact ⟨cleanPath r.URL.Path, by simp [route, ServeMux.Handler, hm, hu, hsr, hc]⟩
    · exfalso
      apply hsr
      rw [hc]
      have e : cleanPath (ascii "/api") = ascii "/api" := by decide
      rw [e]
      exact shouldRedirect_api _

/-- A request that is not in cleaned form is redirected to the cleaned path,
unless that is `"/api"`. -/
theorem route_redirect_clean (strip : GoString → GoString) (r : Request)
    (hm : r.Method ≠ ascii "CONNECT") (hu : r.RequestURI ≠ ascii "*")
    (hc : cleanPath r.URL.Path ≠ r.URL.Path) (hne : cleanPath r.URL.Path ≠ ascii "/api") :
    route strip r = .redirect (cleanPath r.URL.Path) := by
  obtain ⟨c, hcs⟩ := (cleanPath_shape r.URL.Path).1
  have hsr : shouldRedirectRLocked (strip r.Host) (cleanPath r.URL.Path) = false := by
    rw [hcs]
    exact shouldRedirect_of_rooted _ c (hcs ▸ hne)
  simp [route, ServeMux.Handler, hm, hu, hsr, hc]

/-- A `CONNECT` request under `"/api/"` goes to the suffix handler as it is. -/
theorem route_connect_api (strip : GoString → GoString) (r : Request)
    (hm : r.Method = ascii "CONNECT") (hu : r.RequestURI ≠ ascii "*")
    (hp : ascii "/api/" <+: r.URL.Path) :
    route strip r = apiHandler r.URL.Path := by
  simp [route, ServeMux.Handler, hm, hu, shouldRedirect_of_api _ _ hp, muxHandler_of_api _ hp]

/-- A request under `"/api/"`, in cleaned form unless it is a `CONNECT` request,
goes to the suffix handler. -/
theorem route_api (strip : GoString → GoString) (r : Request)
    (hu : r.RequestURI ≠ ascii "*") (hp : ascii "/api/" <+: r.URL.Path)
    (hc : r.Method = ascii "CONNECT" ∨ cleanPath r.URL.Path = r.URL.Path) :
    route strip r = apiHandler r.URL.Path := by
  by_cases hm : r.Method = ascii "CONNECT"
  · exact route_connect_api strip r hm hu hp
  · rcases hc with hc | hc
    · exact absurd hc hm
    · have hne : r.URL.Path ≠ ascii "/api" := by
        intro e
        rw [e] at hp
        exact absurd hp (by decide)
      rw [route_of_clean strip r hm hu hc hne, muxHandler_of_api _ hp]

/-- A cleaned path under `"/api/"` that ends with one of the two suffixes has a
non-empty tenant segment. -/
theorem extract_of_clean_endpoint (p : GoString) (hc : cleanPath p = p)
    (hp : ascii "/api/" <+: p) (hs : ascii "/sse" <:+ p ∨ ascii "/message" <:+ p) :
    ∃ t, t ≠ [] ∧ extractTenantFromPath p = .ok t := by
  have hnd : NoDoubleSlash p := hc ▸ (cleanPath_shape p).2
  have hlast : p.getLast? = some 101 := by
    rcases hs with ⟨u, hu⟩ | ⟨u, hu⟩
    · rw [← hu, List.getLast?_append]
      rfl
    · rw [← hu, List.getLast?_append]
      rfl
  obtain ⟨y, hy⟩ := hp
  cases y with
  | nil =>
    rw [← hy] at hlast
    exact absurd hlast (by decide)
  | cons b y1 =>
    have hb : b ≠ slash := by
      have h2 : NoDoubleSlash (slash :: b :: y1) := by
        unfold NoDoubleSlash at *
        refine List.Chain'.suffix hnd ⟨ascii "/api", ?_⟩
        rw [← hy]
        rfl
      intro e
      exact NoDoubleSlash_head slash b y1 h2 ⟨rfl, e⟩
    have hW : ([112, 105, 47, b] ++ y1 : GoString).getLast? = some 101 := by
      rw [← hy] at hlast
      exact hlast
    have hW2 := List.dropLast_append_getLast? 101 hW
    have htrim : Trim p slash = ascii "api" ++ slash :: (b :: y1) := by
      have h3 := Trim_slash_cons 97 101 ([112, 105, 47, b] ++ y1 : GoString).dropLast
        (by decide) (by decide)
      rw [hW2] at h3
      rw [← hy]
      exact h3
    rcases sep_cases (b :: y1) slash with hno | ⟨seg, rest, hseg, hsplit⟩
    · refine ⟨b :: y1, by simp, ?_⟩
      have h4 := extract_two_segments p (ascii "api") (b :: y1) [] (by decide) hno (Or.inl rfl)
        (by rw [htrim]; simp)
      simpa using h4
    · have hne : seg ≠ [] := by
        intro e
        rw [e] at hsplit
        simp only [List.nil_append, List.cons.injEq] at hsplit
        exact hb hsplit.1
      refine ⟨seg, hne, ?_⟩
      have h4 := extract_two_segments p (ascii "api") seg (slash :: rest) (by decide) hseg
        (Or.inr ⟨rest, rfl⟩) (by rw [htrim, hsplit]; simp)
      simpa using h4

/-- The request for `"/api"` is redirected to the subtree root. -/
theorem route_api_root (strip : GoString → GoString) (r : Request)
    (hm : r.Method ≠ ascii "CONNECT") (hu : r.RequestURI ≠ ascii "*")
    (hp : r.URL.Path = ascii "/api") :
    route strip r = .redirect (ascii "/api/") := by
  have e : cleanPath (ascii "/api") = ascii "/api" := by decide
  simp [route, ServeMux.Handler, hm, hu, hp, e, shouldRedirect_api]
  decide

/-! ## The claims -/

/-- C1: for every non-empty tenant `t` without `'/'`, the extractor returns `t`
on `"/api/" + t + "/sse"` and on `"/api/" + t + "/message"`. -/
theorem extractTenantFromPath_endpoint (t : GoString) (_hne : t ≠ []) (hs : slash ∉ t) :
    extractTenantFromPath (ascii "/api/" ++ t ++ ascii "/sse") = .ok t ∧
    extractTenantFromPath (ascii "/api/" ++ t ++ ascii "/message") = .ok t :=
  ⟨extract_sse t hs, extract_message t hs⟩

theorem extractTenantFromPath_endpoint_witness :
    ascii "tenant123" ≠ [] ∧ slash ∉ ascii "tenant123" ∧
    (extractTenantFromPath (ascii "/api/" ++ ascii "tenant123" ++ ascii "/sse")
        = .ok (ascii "tenant123") ∧
      extractTenantFromPath (ascii "/api/" ++ ascii "tenant123" ++ ascii "/message")
        = .ok (ascii "tenant123")) :=
  ⟨by decide, by decide, extractTenantFromPath_endpoint (ascii "tenant123") (by decide) (by decide)⟩

/-- C2, as stated, fails: `"/api/t"` is not an endpoint path, yet the extractor
returns `"t"` for it; likewise `"/api/sse"`, `"/api/t/x/sse"` and `"api/t/sse"`
yield `"sse"`, `"t"` and `"t"`. -/
theorem extractTenantFromPath_other_paths_counterexample :
    (¬ ∃ t : GoString, t ≠ [] ∧ slash ∉ t ∧
        (ascii "/api/t" = ascii "/api/" ++ t ++ ascii "/sse" ∨
         ascii "/api/t" = ascii "/api/" ++ t ++ ascii "/message")) ∧
    extractTenantFromPath (ascii "/api/t") = .ok (ascii "t") ∧
    extractTenantFromPath (ascii "/api/t") ≠ .ok (ascii "") ∧
    extractTenantFromPath (ascii "/api/sse") = .ok (ascii "sse") ∧
    extractTenantFromPath (ascii "/api/t/x/sse") = .ok (ascii "t") ∧
    extractTenantFromPath (ascii "api/t/sse") = .ok (ascii "t") := by
  refine ⟨?_, by decide, by decide, by decide, by decide, by decide⟩
  rintro ⟨t, _, _, h | h⟩
  · have := congrArg List.length h
    simp [ascii] at this
  · have := congrArg List.length h
    simp [ascii] at this

/-- C2, amended: the extractor returns the empty string exactly for the paths
whose trimmed form is not `"api/" + t` or `"api/" + t + "/" + rest` with `t`
non-empty and free of `'/'`. -/
theorem extractTenantFromPath_empty_iff (p : GoString) :
    extractTenantFromPath p = .ok (ascii "") ↔
      ¬ ∃ t rest : GoString, t ≠ [] ∧ slash ∉ t ∧
        (Trim p slash = ascii "api/" ++ t ∨
         Trim p slash = ascii "api/" ++ t ++ slash :: rest) := by
  have hlit : ∀ t : GoString, ascii "api/" ++ t = ascii "api" ++ slash :: t := fun _ => rfl
  have hemp : ascii "" = [] := rfl
  rw [hemp]
  constructor
  · rintro h ⟨t, rest, hne, hs, hq | hq⟩
    · have h2 := extract_two_segments p (ascii "api") t [] (by decide) hs (Or.inl rfl)
        (by rw [hq, hlit]; simp)
      rw [h] at h2
      simp at h2
      exact hne h2
    · have h2 := extract_two_segments p (ascii "api") t (slash :: rest) (by decide) hs
        (Or.inr ⟨rest, rfl⟩) (by rw [hq, hlit])
      rw [h] at h2
      simp at h2
      exact hne h2
  · intro h
    rcases sep_cases (Trim p slash) slash with h1 | ⟨a, r, ha, hq⟩
    · exact extract_one_segment p h1
    · rcases sep_cases r slash with hr | ⟨t, rest, ht, hr⟩
      · have h2 := extract_two_segments p a r [] ha hr (Or.inl rfl) (by simpa using hq)
        by_cases hapi : a = ascii "api"
        · by_cases hr0 : r = []
          · simpa [hapi, hr0] using h2
          · exact absurd ⟨r, [], hr0, hr, Or.inl (by rw [hq, hapi, hlit])⟩ h
        · simpa [hapi] using h2
      · have h2 := extract_two_segments p a t (slash :: rest) ha ht (Or.inr ⟨rest, rfl⟩)
          (by simpa [hr] using hq)
        by_cases hapi : a = ascii "api"
        · by_cases ht0 : t = []
          · simpa [hapi, ht0] using h2
          · refine absurd ⟨t, rest, ht0, ht, Or.inr ?_⟩ h
            rw [hq, hapi, hr, hlit]
            simp
        · simpa [hapi] using h2

/-- C3, as stated, fails: for the path `"/"` the extractor fails and the resolver
returns `"/api/"`, which is `"/api/" + d` for no non-empty `d`. -/
theorem dynamicBasePath_fallback_counterexample :
    extractTenantFromPath (ascii "/") = .ok (ascii "") ∧
    dynamicBasePath (requestFor (ascii "/")) (ascii "s1") = .ok (ascii "/api/") ∧
    ¬ ∃ d : GoString, d ≠ [] ∧ slash ∉ d ∧
        dynamicBasePath (requestFor (ascii "/")) (ascii "s1") = .ok (ascii "/api/" ++ d) := by
  refine ⟨by decide, by decide, ?_⟩
  rintro ⟨d, hne, _, h⟩
  have h2 : dynamicBasePath (requestFor (ascii "/")) (ascii "s1") = .ok (ascii "/api/") := by
    decide
  rw [h2] at h
  have h3 := Except.ok.inj h
  have h4 : ascii "/api/" ++ [] = ascii "/api/" ++ d := by simpa using h3
  exact hne (List.append_cancel_left h4).symm

/-- C3, amended: whenever the extractor fails on the request path, the resolver
returns exactly `"/api/"`, a non-empty string that is the same for all such
paths and carries an empty tenant segment. -/
theorem dynamicBasePath_of_failed_tenant (r : Request) (s : GoString)
    (h : extractTenantFromPath r.URL.Path = .ok (ascii "")) :
    dynamicBasePath r s = .ok (ascii "/api/") ∧ ascii "/api/" ≠ [] := by
  refine ⟨?_, by decide⟩
  have h2 := dynamicBasePath_of_extract r s (ascii "") h
  simpa [ascii] using h2

theorem dynamicBasePath_of_failed_tenant_witness :
    extractTenantFromPath (requestFor (ascii "/unrelated/path")).URL.Path = .ok (ascii "") ∧
    (dynamicBasePath (requestFor (ascii "/unrelated/path")) (ascii "s1") = .ok (ascii "/api/") ∧
      ascii "/api/" ≠ []) :=
  ⟨by decide,
    dynamicBasePath_of_failed_tenant (requestFor (ascii "/unrelated/path")) (ascii "s1")
      (by decide)⟩

/-- C4, as stated, fails: `"/api/sse"` does not have the shape
`"/api/{tenant}/..."`, yet the router hands it to the streaming handler; and a
`CONNECT` request for `"/api//sse"`, on which the extractor fails, reaches the
streaming handler too, the mux not cleaning the path of such a request. -/
theorem route_invalid_path_counterexample :
    (¬ ∃ t rest : GoString, t ≠ [] ∧ slash ∉ t ∧
        ascii "/api/sse" = ascii "/api/" ++ t ++ slash :: rest) ∧
    (∀ strip, route strip (requestFor (ascii "/api/sse")) = .sseHandler) ∧
    extractTenantFromPath (ascii "/api//sse") = .ok (ascii "") ∧
    (∀ strip, route strip
        (Request.mk (ascii "CONNECT") (URL.mk [] [] (ascii "/api//sse") []) (ascii "localhost")
          (ascii "/api//sse") [] []) = .sseHandler) := by
  refine ⟨?_, ?_, by decide, ?_⟩
  · rintro ⟨t, rest, _, _, h⟩
    have h2 : ascii "sse" = t ++ slash :: rest := by
      have e : ascii "/api/sse" = ascii "/api/" ++ ascii "sse" := by decide
      rw [e, List.append_assoc] at h
      exact List.append_cancel_left h
    have h3 : slash ∈ ascii "sse" := by
      rw [h2]
      simp
    exact absurd h3 (by decide)
  · intro strip
    exact (route_api strip (requestFor (ascii "/api/sse")) (by decide) (by decide)
      (Or.inr (by decide))).trans (by decide)
  · intro strip
    exact (route_api strip
      (Request.mk (ascii "CONNECT") (URL.mk [] [] (ascii "/api//sse") []) (ascii "localhost")
        (ascii "/api//sse") [] []) (by decide) (by decide) (Or.inl (by decide))).trans (by decide)

/-- C4, amended: for a request other than `CONNECT` and `"*"` whose path has no
tenant for the extractor, neither handler is invoked: the router answers
not-found when the path is in cleaned form and is not `"/api"`, and with a
redirect otherwise.  The claim does not extend to paths that merely lack a
segment between prefix and suffix: `"/api/sse"` goes to the streaming handler. -/
theorem route_failed_tenant (strip : GoString → GoString) (r : Request)
    (hm : r.Method ≠ ascii "CONNECT") (hu : r.RequestURI ≠ ascii "*")
    (he : extractTenantFromPath r.URL.Path = .ok (ascii "")) :
    route strip r ≠ .sseHandler ∧ route strip r ≠ .messageHandler ∧
    (route strip r = .notFound ↔
      (cleanPath r.URL.Path = r.URL.Path ∧ r.URL.Path ≠ ascii "/api")) ∧
    (¬ (cleanPath r.URL.Path = r.URL.Path ∧ r.URL.Path ≠ ascii "/api") →
      ∃ loc, route strip r = .redirect loc) ∧
    route strip (requestFor (ascii "/api/sse")) = .sseHandler := by
  have hsse : route strip (requestFor (ascii "/api/sse")) = .sseHandler :=
    (route_api strip (requestFor (ascii "/api/sse")) (by decide) (by decide)
      (Or.inr (by decide))).trans (by decide)
  by_cases hcl : cleanPath r.URL.Path = r.URL.Path ∧ r.URL.Path ≠ ascii "/api"
  · have hnf : route strip r = .notFound := by
      rw [route_of_clean strip r hm hu hcl.1 hcl.2]
      by_cases hp : ascii "/api/" <+: r.URL.Path
      · rw [muxHandler_of_api _ hp, apiHandler_notFound_iff]
        have key : ¬ (ascii "/sse" <:+ r.URL.Path ∨ ascii "/message" <:+ r.URL.Path) := by
          intro hs
          obtain ⟨t, hne, ht⟩ := extract_of_clean_endpoint r.URL.Path hcl.1 hp hs
          rw [he] at ht
          exact hne (Except.ok.inj ht).symm
        exact ⟨fun h => key (Or.inl h), fun h => key (Or.inr h)⟩
      · exact muxHandler_of_not_api _ hp
    rw [hnf]
    exact ⟨by decide, by decide, ⟨fun _ => hcl, fun _ => rfl⟩, fun h => absurd hcl h, hsse⟩
  · have hc : cleanPath r.URL.Path ≠ r.URL.Path ∨ r.URL.Path = ascii "/api" := by
      by_cases h1 : cleanPath r.URL.Path = r.URL.Path
      · right
        by_contra h2
        exact hcl ⟨h1, h2⟩
      · exact Or.inl h1
    obtain ⟨loc, hloc⟩ := route_of_unclean strip r hm hu hc
    rw [hloc]
    refine ⟨by simp, by simp, ⟨fun h => by simp at h, fun h => absurd h hcl⟩,
      fun _ => ⟨loc, rfl⟩, hsse⟩

theorem route_failed_tenant_witness :
    (requestFor (ascii "/api//sse")).Method ≠ ascii "CONNECT" ∧
    (requestFor (ascii "/api//sse")).RequestURI ≠ ascii "*" ∧
    extractTenantFromPath (requestFor (ascii "/api//sse")).URL.Path = .ok (ascii "") ∧
    (route id (requestFor (ascii "/api//sse")) ≠ .sseHandler ∧
      route id (requestFor (ascii "/api//sse")) ≠ .messageHandler ∧
      (route id (requestFor (ascii "/api//sse")) = .notFound ↔
        (cleanPath (requestFor (ascii "/api//sse")).URL.Path
            = (requestFor (ascii "/api//sse")).URL.Path ∧
          (requestFor (ascii "/api//sse")).URL.Path ≠ ascii "/api")) ∧
      (¬ (cleanPath (requestFor (ascii "/api//sse")).URL.Path
            = (requestFor (ascii "/api//sse")).URL.Path ∧
          (requestFor (ascii "/api//sse")).URL.Path ≠ ascii "/api") →
        ∃ loc, route id (requestFor (ascii "/api//sse")) = .redirect loc) ∧
      route id (requestFor (ascii "/api/sse")) = .sseHandler) :=
  ⟨by decide, by decide, by decide,
    route_failed_tenant id (requestFor (ascii "/api//sse")) (by decide) (by decide) (by decide)⟩

/-- C5, as stated, fails: for the tenants `".."` and `"."` the resolver returns
`"/api/.."` and `"/api/."`, and the mux answers the paths built on them with a
redirect to the cleaned path instead of calling a handler. -/
theorem resolver_router_round_trip_counterexample :
    ascii ".." ≠ [] ∧ slash ∉ ascii ".." ∧
    dynamicBasePath (requestFor (ascii "/api/" ++ ascii ".." ++ ascii "/sse")) (ascii "s1")
      = .ok (ascii "/api/..") ∧
    (∀ strip, route strip (requestFor (ascii "/api/.." ++ ascii "/sse"))
      = .redirect (ascii "/sse")) ∧
    (∀ strip, route strip (requestFor (ascii "/api/.." ++ ascii "/message"))
      = .redirect (ascii "/message")) ∧
    ascii "." ≠ [] ∧ slash ∉ ascii "." ∧
    dynamicBasePath (requestFor (ascii "/api/" ++ ascii "." ++ ascii "/sse")) (ascii "s1")
      = .ok (ascii "/api/.") ∧
    (∀ strip, route strip (requestFor (ascii "/api/." ++ ascii "/sse"))
      = .redirect (ascii "/api/sse")) := by
  refine ⟨by decide, by decide, by decide, ?_, ?_, by decide, by decide, by decide, ?_⟩
  · intro strip
    exact (route_redirect_clean strip (requestFor (ascii "/api/.." ++ ascii "/sse"))
      (by decide) (by decide) (by decide) (by decide)).trans (by decide)
  · intro strip
    exact (route_redirect_clean strip (requestFor (ascii "/api/.." ++ ascii "/message"))
      (by decide) (by decide) (by decide) (by decide)).trans (by decide)
  · intro strip
    exact (route_redirect_clean strip (requestFor (ascii "/api/." ++ ascii "/sse"))
      (by decide) (by decide) (by decide) (by decide)).trans (by decide)

/-- C5, amended: for every non-empty tenant `t` without `'/'` other than `"."`
and `".."`, and every request with path `"/api/" + t + "/sse"`, the resolver
returns a base path `b` such that the router sends every request for
`b + "/sse"` to the streaming handler and every request for `b + "/message"`
to the message handler (the request URI not being `"*"`). -/
theorem resolver_router_round_trip (strip : GoString → GoString) (t : GoString)
    (r r2 : Request) (sid : GoString) (hne : t ≠ []) (hs : slash ∉ t)
    (hdot : t ≠ ascii ".") (hdotdot : t ≠ ascii "..") (hu : r2.RequestURI ≠ ascii "*") :
    ∃ b, dynamicBasePath (withPath r (ascii "/api/" ++ t ++ ascii "/sse")) sid = .ok b ∧
      route strip (withPath r2 (b ++ ascii "/sse")) = .sseHandler ∧
      route strip (withPath r2 (b ++ ascii "/message")) = .messageHandler := by
  have ht : t ≠ [] ∧ slash ∉ t ∧ t ≠ [dot] ∧ t ≠ [dot, dot] := ⟨hne, hs, hdot, hdotdot⟩
  have hc1 : cleanPath (ascii "/api/" ++ t ++ ascii "/sse") = ascii "/api/" ++ t ++ ascii "/sse" := by
    have h := cleanPath_three (ascii "api") t (ascii "sse")
      ⟨by decide, by decide, by decide, by decide⟩ ht
      ⟨by decide, by decide, by decide, by decide⟩
    have e : ascii "/api/" ++ t ++ ascii "/sse"
        = slash :: (ascii "api" ++ slash :: (t ++ slash :: ascii "sse")) := by
      simp [ascii, slash]
      decide
    rw [e]
    exact h
  have hc2 : cleanPath (ascii "/api/" ++ t ++ ascii "/message")
      = ascii "/api/" ++ t ++ ascii "/message" := by
    have h := cleanPath_three (ascii "api") t (ascii "message")
      ⟨by decide, by decide, by decide, by decide⟩ ht
      ⟨by decide, by decide, by decide, by decide⟩
    have e : ascii "/api/" ++ t ++ ascii "/message"
        = slash :: (ascii "api" ++ slash :: (t ++ slash :: ascii "message")) := by
      simp [ascii, slash]
      decide
    rw [e]
    exact h
  refine ⟨ascii "/api/" ++ t, ?_, ?_, ?_⟩
  · exact dynamicBasePath_of_extract _ sid t (extract_sse t hs)
  · have hp : ascii "/api/" <+: ascii "/api/" ++ t ++ ascii "/sse" := by
      rw [List.append_assoc]; exact List.prefix_append _ _
    rw [route_api strip (withPath r2 (ascii "/api/" ++ t ++ ascii "/sse")) hu hp (Or.inr hc1)]
    exact (apiHandler_sse_iff _).mpr (List.suffix_append _ _)
  · have hp : ascii "/api/" <+: ascii "/api/" ++ t ++ ascii "/message" := by
      rw [List.append_assoc]; exact List.prefix_append _ _
    rw [route_api strip (withPath r2 (ascii "/api/" ++ t ++ ascii "/message")) hu hp (Or.inr hc2)]
    exact (apiHandler_message_iff _).mpr (List.suffix_append _ _)

theorem resolver_router_round_trip_witness :
    ascii "tenant123" ≠ [] ∧ slash ∉ ascii "tenant123" ∧
    ascii "tenant123" ≠ ascii "." ∧ ascii "tenant123" ≠ ascii ".." ∧
    (requestFor (ascii "/")).RequestURI ≠ ascii "*" ∧
    ∃ b, dynamicBasePath
          (withPath (requestFor (ascii "/")) (ascii "/api/" ++ ascii "tenant123" ++ ascii "/sse"))
          (ascii "s1") = .ok b ∧
      route id (withPath (requestFor (ascii "/")) (b ++ ascii "/sse")) = .sseHandler ∧
      route id (withPath (requestFor (ascii "/")) (b ++ ascii "/message")) = .messageHandler :=
  ⟨by decide, by decide, by decide, by decide, by decide,
    resolver_router_round_trip id (ascii "tenant123") (requestFor (ascii "/"))
      (requestFor (ascii "/")) (ascii "s1") (by decide) (by decide) (by decide) (by decide)
      (by decide)⟩

/-- C6, as stated, fails: `"/api/t//sse"` starts with `"/api/"` and ends with
`"/sse"`, yet the mux answers it with a redirect to `"/api/t/sse"` and calls no
handler; and `"/api"`, which does not start with `"/api/"`, is answered with a
redirect to `"/api/"`, not with not-found. -/
theorem route_suffix_dispatch_counterexample :
    ascii "/api/" <+: ascii "/api/t//sse" ∧ ascii "/sse" <:+ ascii "/api/t//sse" ∧
    (∀ strip, route strip (requestFor (ascii "/api/t//sse")) = .redirect (ascii "/api/t/sse")) ∧
    ¬ ascii "/api/" <+: ascii "/api" ∧
    (∀ strip, route strip (requestFor (ascii "/api")) = .redirect (ascii "/api/")) := by
  refine ⟨by decide, by decide, ?_, by decide, ?_⟩
  · intro strip
    exact (route_redirect_clean strip (requestFor (ascii "/api/t//sse"))
      (by decide) (by decide) (by decide) (by decide)).trans (by decide)
  · intro strip
    exact route_api_root strip (requestFor (ascii "/api")) (by decide) (by decide) rfl

/-- C6, amended: for a request `r` (request URI not `"*"`) whose path starts with
`"/api/"` and is in cleaned form, or that is a `CONNECT` request, the router
picks the streaming handler iff the path ends with `"/sse"`, the message handler
iff it ends with `"/message"`, and not-found iff neither; the match is
case-sensitive.  A request `q` other than `CONNECT` and `"*"` whose path is in
cleaned form, does not start with `"/api/"` and is not `"/api"` is not-found.  A
request `u` other than `CONNECT` and `"*"` whose path is not in cleaned form is
answered with a redirect, and `"/api"` with a redirect to `"/api/"`. -/
theorem route_suffix_dispatch (strip : GoString → GoString) (r q u : Request)
    (hur : r.RequestURI ≠ ascii "*") (hp : ascii "/api/" <+: r.URL.Path)
    (hcr : r.Method = ascii "CONNECT" ∨ cleanPath r.URL.Path = r.URL.Path)
    (hmq : q.Method ≠ ascii "CONNECT") (huq : q.RequestURI ≠ ascii "*")
    (hcq : cleanPath q.URL.Path = q.URL.Path) (hq : ¬ ascii "/api/" <+: q.URL.Path)
    (hq2 : q.URL.Path ≠ ascii "/api")
    (hmu : u.Method ≠ ascii "CONNECT") (huu : u.RequestURI ≠ ascii "*")
    (hcu : cleanPath u.URL.Path ≠ u.URL.Path) :
    (route strip r = .sseHandler ↔ ascii "/sse" <:+ r.URL.Path) ∧
    (route strip r = .messageHandler ↔ ascii "/message" <:+ r.URL.Path) ∧
    (route strip r = .notFound ↔
      (¬ ascii "/sse" <:+ r.URL.Path ∧ ¬ ascii "/message" <:+ r.URL.Path)) ∧
    route strip q = .notFound ∧
    (∃ loc, route strip u = .redirect loc) ∧
    route strip (requestFor (ascii "/api/t/SSE")) = .notFound ∧
    route strip (requestFor (ascii "/api/t/Message")) = .notFound ∧
    route strip (requestFor (ascii "/unrelated/path")) = .notFound ∧
    route strip (requestFor (ascii "/api")) = .redirect (ascii "/api/") := by
  rw [route_api strip r hur hp hcr]
  refine ⟨apiHandler_sse_iff _, apiHandler_message_iff _, apiHandler_notFound_iff _, ?_,
    route_of_unclean strip u hmu huu (Or.inl hcu), ?_, ?_, ?_, ?_⟩
  · rw [route_of_clean strip q hmq huq hcq hq2]
    exact muxHandler_of_not_api _ hq
  · exact (route_api strip (requestFor (ascii "/api/t/SSE")) (by decide) (by decide)
      (Or.inr (by decide))).trans (by decide)
  · exact (route_api strip (requestFor (ascii "/api/t/Message")) (by decide) (by decide)
      (Or.inr (by decide))).trans (by decide)
  · exact (route_of_clean strip (requestFor (ascii "/unrelated/path")) (by decide) (by decide)
      (by decide) (by decide)).trans (by decide)
  · exact route_api_root strip (requestFor (ascii "/api")) (by decide) (by decide) rfl

theorem route_suffix_dispatch_witness :
    (requestFor (ascii "/api/tenant123/message")).RequestURI ≠ ascii "*" ∧
    ascii "/api/" <+: (requestFor (ascii "/api/tenant123/message")).URL.Path ∧
    ((requestFor (ascii "/api/tenant123/message")).Method = ascii "CONNECT" ∨
      cleanPath (requestFor (ascii "/api/tenant123/message")).URL.Path
        = (requestFor (ascii "/api/tenant123/message")).URL.Path) ∧
    (requestFor (ascii "/unrelated/path")).Method ≠ ascii "CONNECT" ∧
    (requestFor (ascii "/unrelated/path")).RequestURI ≠ ascii "*" ∧
    cleanPath (requestFor (ascii "/unrelated/path")).URL.Path
      = (requestFor (ascii "/unrelated/path")).URL.Path ∧
    ¬ ascii "/api/" <+: (requestFor (ascii "/unrelated/path")).URL.Path ∧
    (requestFor (ascii "/unrelated/path")).URL.Path ≠ ascii "/api" ∧
    (requestFor (ascii "/api/t//sse")).Method ≠ ascii "CONNECT" ∧
    (requestFor (ascii "/api/t//sse")).RequestURI ≠ ascii "*" ∧
    cleanPath (requestFor (ascii "/api/t//sse")).URL.Path
      ≠ (requestFor (ascii "/api/t//sse")).URL.Path ∧
    ((route id (requestFor (ascii "/api/tenant123/message")) = .sseHandler
        ↔ ascii "/sse" <:+ (requestFor (ascii "/api/tenant123/message")).URL.Path) ∧
      (route id (requestFor (ascii "/api/tenant123/message")) = .messageHandler
        ↔ ascii "/message" <:+ (requestFor (ascii "/api/tenant123/message")).URL.Path) ∧
      (route id (requestFor (ascii "/api/tenant123/message")) = .notFound
        ↔ (¬ ascii "/sse" <:+ (requestFor (ascii "/api/tenant123/message")).URL.Path ∧
            ¬ ascii "/message" <:+ (requestFor (ascii "/api/tenant123/message")).URL.Path)) ∧
      route id (requestFor (ascii "/unrelated/path")) = .notFound ∧
      (∃ loc, route id (requestFor (ascii "/api/t//sse")) = .redirect loc) ∧
      route id (requestFor (ascii "/api/t/SSE")) = .notFound ∧
      route id (requestFor (ascii "/api/t/Message")) = .notFound ∧
      route id (requestFor (ascii "/unrelated/path")) = .notFound ∧
      route id (requestFor (ascii "/api")) = .redirect (ascii "/api/")) :=
  ⟨by decide, by decide, by decide, by decide, by decide, by decide, by decide, by decide,
    by decide, by decide, by decide,
    route_suffix_dispatch id (requestFor (ascii "/api/tenant123/message"))
      (requestFor (ascii "/unrelated/path")) (requestFor (ascii "/api/t//sse"))
      (by decide) (by decide) (by decide) (by decide) (by decide) (by decide) (by decide)
      (by decide) (by decide) (by decide) (by decide)⟩

/-- C7: for every request and session identifier the resolver returns exactly
`"/api/"` followed by the extractor's result for the request path; for a
non-empty tenant `t` without `'/'` and the path `"/api/" + t + "/sse"` that is
`"/api/" + t`, and `"/api/tenant123/sse"` resolves to `"/api/tenant123"`. -/
theorem dynamicBasePath_eq (r : Request) (s t : GoString) (_hne : t ≠ []) (hs : slash ∉ t) :
    (∃ tenant, extractTenantFromPath r.URL.Path = .ok tenant ∧
      dynamicBasePath r s = .ok (ascii "/api/" ++ tenant)) ∧
    dynamicBasePath (withPath r (ascii "/api/" ++ t ++ ascii "/sse")) s
      = .ok (ascii "/api/" ++ t) ∧
    dynamicBasePath (withPath r (ascii "/api/tenant123/sse")) s
      = .ok (ascii "/api/tenant123") := by
  refine ⟨?_, ?_, ?_⟩
  · obtain ⟨tenant, h, _⟩ := extract_ok r.URL.Path
    exact ⟨tenant, h, dynamicBasePath_of_extract r s tenant h⟩
  · exact dynamicBasePath_of_extract _ s t (extract_sse t hs)
  · exact dynamicBasePath_of_extract _ s (ascii "tenant123")
      (show extractTenantFromPath (ascii "/api/tenant123/sse") = .ok (ascii "tenant123") by decide)

theorem dynamicBasePath_eq_witness :
    ascii "acme" ≠ [] ∧ slash ∉ ascii "acme" ∧
    ((∃ tenant, extractTenantFromPath (requestFor (ascii "/api/x/message")).URL.Path
          = .ok tenant ∧
        dynamicBasePath (requestFor (ascii "/api/x/message")) (ascii "s1")
          = .ok (ascii "/api/" ++ tenant)) ∧
      dynamicBasePath
          (withPath (requestFor (ascii "/api/x/message")) (ascii "/api/" ++ ascii "acme" ++ ascii "/sse"))
          (ascii "s1") = .ok (ascii "/api/" ++ ascii "acme") ∧
      dynamicBasePath (withPath (requestFor (ascii "/api/x/message")) (ascii "/api/tenant123/sse"))
          (ascii "s1") = .ok (ascii "/api/tenant123")) :=
  ⟨by decide, by decide,
    dynamicBasePath_eq (requestFor (ascii "/api/x/message")) (ascii "s1") (ascii "acme")
      (by decide) (by decide)⟩

/-- C8: the extractor is total: on every input it returns a string and never
panics, the index expressions being reached only behind the length test; in
particular on `""`, `"/"`, `"////"`, `"api"` and `"/api/"`. -/
theorem extractTenantFromPath_total (p : GoString) :
    (∃ t, extractTenantFromPath p = .ok t) ∧
    (∀ e, extractTenantFromPath p ≠ .error e) ∧
    extractTenantFromPath (ascii "") = .ok (ascii "") ∧
    extractTenantFromPath (ascii "/") = .ok (ascii "") ∧
    extractTenantFromPath (ascii "////") = .ok (ascii "") ∧
    extractTenantFromPath (ascii "api") = .ok (ascii "") ∧
    extractTenantFromPath (ascii "/api/") = .ok (ascii "") := by
  obtain ⟨t, h, _⟩ := extract_ok p
  refine ⟨⟨t, h⟩, ?_, by decide, by decide, by decide, by decide, by decide⟩
  intro e he
  rw [h] at he
  cases he

/-- C9: the resolver depends only on the request path: two requests with the
same URL path resolve to the same base path, whatever their other fields and
session identifiers. -/
theorem dynamicBasePath_path_only (r1 r2 : Request) (s1 s2 : GoString)
    (h : r1.URL.Path = r2.URL.Path) :
    dynamicBasePath r1 s1 = dynamicBasePath r2 s2 := by
  simp [dynamicBasePath, h]

theorem dynamicBasePath_path_only_witness :
    (requestFor (ascii "/api/a/sse")).URL.Path
      = (Request.mk (ascii "POST")
          (URL.mk (ascii "https") (ascii "example.org") (ascii "/api/a/sse") (ascii "x=1"))
          (ascii "example.org:8080") (ascii "/api/a/sse?x=1")
          [(ascii "Accept", ascii "text/event-stream")] (ascii "10.0.0.1:99")).URL.Path ∧
    dynamicBasePath (requestFor (ascii "/api/a/sse")) (ascii "s1")
      = dynamicBasePath (Request.mk (ascii "POST")
          (URL.mk (ascii "https") (ascii "example.org") (ascii "/api/a/sse") (ascii "x=1"))
          (ascii "example.org:8080") (ascii "/api/a/sse?x=1")
          [(ascii "Accept", ascii "text/event-stream")] (ascii "10.0.0.1:99")) (ascii "s2") :=
  ⟨rfl, dynamicBasePath_path_only _ _ (ascii "s1") (ascii "s2") rfl⟩

/-- C10: the advertised base path is a fixed point of resolution: for every
request, with `b` the resolver's output, every request with path `b + "/message"`
or `b + "/sse"` resolves to `b` again; equivalently the extractor returns the
extracted tenant again on `"/api/" + tenant + suffix`, the tenant being free of
`'/'`. -/
theorem dynamicBasePath_fixed_point (r r2 : Request) (s s2 : GoString) :
    ∃ tenant b, extractTenantFromPath r.URL.Path = .ok tenant ∧ slash ∉ tenant ∧
      dynamicBasePath r s = .ok b ∧
      dynamicBasePath (withPath r2 (b ++ ascii "/message")) s2 = .ok b ∧
      dynamicBasePath (withPath r2 (b ++ ascii "/sse")) s2 = .ok b ∧
      extractTenantFromPath (ascii "/api/" ++ tenant ++ ascii "/sse") = .ok tenant ∧
      extractTenantFromPath (ascii "/api/" ++ tenant ++ ascii "/message") = .ok tenant := by
  obtain ⟨tenant, h, hs⟩ := extract_ok r.URL.Path
  exact ⟨tenant, ascii "/api/" ++ tenant, h, hs, dynamicBasePath_of_extract r s tenant h,
    dynamicBasePath_of_extract _ s2 tenant (extract_message tenant hs),
    dynamicBasePath_of_extract _ s2 tenant (extract_sse tenant hs),
    extract_sse tenant hs, extract_message tenant hs⟩


end DynamicPath
